import Mathlib

/-
Verification of the cargox run-plan resolver, installed catalog, install-root
provider and sandboxed executor, as a shallow embedding of the Rust sources
(src/main.rs, src/versions.rs, src/paths.rs, src/executor.rs).

Modelling conventions:
- Filesystem paths are lists of components (`Path := List String`);
  `Path::starts_with` becomes `List.isPrefixOf` on components, which is what
  `starts_with` does on canonical absolute paths.
- Fallible operations return `Except`; operations with filesystem effects
  thread an explicit state and are instrumented with call logs so that
  "makes zero remote calls" / "never spawns" style claims are statable.
- The semver collaborator crate is embedded for the parts the code relies on:
  strict version parsing (`Version::parse`) and total ordering (`Ord`).
  Versions are `major.minor.patch[-pre][+build]`; prerelease and build
  metadata are stored verbatim as strings, as in the crate.
- We model the non-Windows configuration (no `.exe` suffix handling), and
  directory entry names as valid UTF-8 (the code skips non-UTF-8 names).
-/

namespace Cargox

/-! ## Semver model (the semver crate, as used by the code) -/

/-- A semantic version as stored by the semver crate: numeric components plus
the prerelease and build-metadata segments kept verbatim as strings. -/
structure Version where
  major : Nat
  minor : Nat
  patch : Nat
  pre : String
  build : String
deriving DecidableEq, Repr

/-- ASCII digit test, as in the crate (`u8::is_ascii_digit`). -/
def isDigitC (c : Char) : Bool := 48 ≤ c.toNat && c.toNat ≤ 57

/-- Characters allowed in prerelease / build identifiers: ASCII alphanumerics
and hyphen. -/
def isIdentC (c : Char) : Bool :=
  isDigitC c || (65 ≤ c.toNat && c.toNat ≤ 90) || (97 ≤ c.toNat && c.toNat ≤ 122) || c.toNat = 45

/-- Numeric value of an ASCII digit character. -/
def digitVal (c : Char) : Nat := c.toNat - 48

/-- Value of a big-endian ASCII digit string. -/
def numVal (cs : List Char) : Nat := cs.foldl (fun a c => 10 * a + digitVal c) 0

/-- A valid numeric identifier: nonempty, all digits, no leading zero
(the crate rejects `01`). -/
def validNum (cs : List Char) : Bool :=
  !cs.isEmpty && cs.all isDigitC && (cs.head? ≠ some '0' || cs = ['0'])

/-- A valid prerelease / build identifier segment (between dots): nonempty and
made of allowed characters; `numericStrict` additionally bans leading zeros
(prerelease identifiers; build identifiers may have them). -/
def validIdent (numericStrict : Bool) (cs : List Char) : Bool :=
  !cs.isEmpty && cs.all isIdentC &&
    (!numericStrict || !(cs.all isDigitC) || cs.head? ≠ some '0' || cs = ['0'])

/-- A valid prerelease segment: nonempty, dot-separated valid identifiers with
numeric identifiers free of leading zeros. -/
def validPre (cs : List Char) : Bool :=
  !cs.isEmpty && (cs.splitOn '.').all (validIdent true)

/-- A valid build-metadata segment: nonempty, dot-separated valid identifiers
(leading zeros permitted). -/
def validBuild (cs : List Char) : Bool :=
  !cs.isEmpty && (cs.splitOn '.').all (validIdent false)

/-- Split a character list at the first occurrence of a separator, keeping
track of whether the separator occurred at all. -/
def splitAtFirst (sep : Char) : List Char → List Char × Option (List Char)
  | [] => ([], none)
  | c :: cs =>
    if c = sep then ([], some cs)
    else
      let r := splitAtFirst sep cs
      (c :: r.1, r.2)

/-- Parse of the optional prerelease part (after the first hyphen following
the numeric core): absent means empty prerelease; present must be valid. -/
def parsePreOpt : Option (List Char) → Option (List Char)
  | none => some []
  | some p => if validPre p then some p else none

/-- Parse of the optional build-metadata part (after the first plus sign). -/
def parseBuildOpt : Option (List Char) → Option (List Char)
  | none => some []
  | some b => if validBuild b then some b else none

/-- The semver crate's strict `Version::parse`, on character lists.
Behaviourally: build metadata is everything after the first `+` (no `+` may
occur earlier since core and prerelease characters exclude it), the
prerelease is everything after the first `-` of the remainder (the numeric
core contains only digits and dots), and the core must be exactly
`major.minor.patch` with strict numeric identifiers. -/
def parseVersionL (cs : List Char) : Option Version :=
  let sPlus := splitAtFirst '+' cs
  let sDash := splitAtFirst '-' sPlus.1
  let sDot1 := splitAtFirst '.' sDash.1
  match sDot1.2 with
  | none => none
  | some rest1 =>
    let sDot2 := splitAtFirst '.' rest1
    match sDot2.2 with
    | none => none
    | some pa =>
      if validNum sDot1.1 && validNum sDot2.1 && validNum pa then
        match parsePreOpt sDash.2, parseBuildOpt sPlus.2 with
        | some p, some b =>
          some ⟨numVal sDot1.1, numVal sDot2.1, numVal pa, ⟨p⟩, ⟨b⟩⟩
        | _, _ => none
      else none

/-- `semver::Version::parse` on strings. -/
def parseVersion (s : String) : Option Version := parseVersionL s.data

/-- Rendering of a version (`Display` for `semver::Version`). -/
def renderVersion (v : Version) : String :=
  toString v.major ++ "." ++ toString v.minor ++ "." ++ toString v.patch ++
    (if v.pre = "" then "" else "-" ++ v.pre) ++
    (if v.build = "" then "" else "+" ++ v.build)

/-! ### Version ordering (semver `Ord`) -/

/-- Byte comparison of characters (ASCII string comparison in the crate). -/
def charCmp (a b : Char) : Ordering := compare a.toNat b.toNat

/-- Lexicographic comparison of lists by an element comparator; a proper
prefix compares as smaller. -/
def listCmp (c : α → α → Ordering) : List α → List α → Ordering
  | [], [] => .eq
  | [], _ :: _ => .lt
  | _ :: _, [] => .gt
  | a :: as, b :: bs => (c a b).then (listCmp c as bs)

/-- All-digits test used by identifier comparison. -/
def allDigits (cs : List Char) : Bool := cs.all isDigitC

/-- Numeric key of an identifier: its numeric value when all digits, else 0
(the non-numeric branch never reaches this stage of the comparison). -/
def idNumKey (cs : List Char) : Nat := if allDigits cs then numVal cs else 0

/-- Length key of an identifier, guarded the same way. -/
def idLenKey (cs : List Char) : Nat := if allDigits cs then cs.length else 0

/-- Comparison of single dot-separated identifiers, per semver precedence:
numeric identifiers order below alphanumeric ones; two numeric identifiers
compare by numeric value (ties broken by length, i.e. number of leading
zeros, then bytes); two alphanumeric identifiers compare by bytes. -/
def idCmp : List Char → List Char → Ordering :=
  compareLex (compareOn fun cs => !allDigits cs)
    (compareLex (compareOn idNumKey) (compareLex (compareOn idLenKey) (listCmp charCmp)))

/-- Comparison of dot-separated identifier sequences: identifier by
identifier, a shorter sequence ordering below its extensions. -/
def identsCmp : List (List Char) → List (List Char) → Ordering := listCmp idCmp

/-- `Ord` for `semver::Prerelease`: the empty prerelease (a release version)
has the highest precedence; otherwise compare identifier sequences. -/
def preCmp : String → String → Ordering :=
  compareLex (compareOn fun s => s.data.isEmpty)
    (fun a b => identsCmp (a.data.splitOn '.') (b.data.splitOn '.'))

/-- `Ord` for `semver::BuildMetadata`: compare identifier sequences (the
empty string splits into a single empty identifier, which orders first). -/
def buildCmp : String → String → Ordering :=
  fun a b => identsCmp (a.data.splitOn '.') (b.data.splitOn '.')

/-- `Ord` for `semver::Version`: major, minor, patch, prerelease, then build
metadata. -/
def versionCmp : Version → Version → Ordering :=
  compareLex (compareOn Version.major)
    (compareLex (compareOn Version.minor)
      (compareLex (compareOn Version.patch)
        (compareLex (fun a b => preCmp a.pre b.pre)
          (fun a b => buildCmp a.build b.build))))

/-- Rust `>=` on versions via `Ord`. -/
def versionGe (a b : Version) : Bool :=
  match versionCmp a b with
  | .lt => false
  | _ => true

/-! ## Installed catalog (src/versions.rs) -/

/-- A filesystem path as a list of components. -/
abbrev Path := List String

/-- `InstalledBinary` from src/versions.rs. -/
structure InstalledBinary where
  version : Version
  path : Path
deriving DecidableEq, Repr

/-- A directory entry as observed by `fs::read_dir`: its file name and
whether it is a regular file (`path.is_file()`). -/
structure DirEntry where
  name : String
  isFile : Bool
deriving DecidableEq, Repr

/-- Errors surfaced by the catalog operations. -/
inductive CatErr
  | installDirFailed
  | createDirFailed
  | readDirFailed
deriving DecidableEq, Repr

/-- Filesystem state seen by src/versions.rs. `getInstallDir` abstracts the
result of `paths::get_install_dir()` (modelled in detail separately);
`binDir` is the content of `<install dir>/bin` (`none` when the directory
does not exist); `createFails` / `readDirFails` model the outcome of
`fs::create_dir_all` / `fs::read_dir`; `createCalls` counts
`fs::create_dir_all` attempts, instrumenting write side effects. -/
structure FsState where
  getInstallDir : Option Path
  binDir : Option (List DirEntry)
  createFails : Bool
  readDirFails : Bool
  createCalls : Nat
deriving DecidableEq, Repr

/-- `versioned_binary_name` from src/versions.rs: `format!("{binary}-{version}")`. -/
def versionedBinaryName (binary : String) (v : Version) : String :=
  binary ++ "-" ++ renderVersion v

/-- `ensure_bin_dir` from src/versions.rs: resolve the install dir, then
`fs::create_dir_all(install_dir/bin)` and return that path. -/
def ensureBinDir (st : FsState) : Except CatErr Path × FsState :=
  match st.getInstallDir with
  | none => (.error .installDirFailed, st)
  | some d =>
    let binPath := d ++ ["bin"]
    let st' := { st with createCalls := st.createCalls + 1 }
    if st.createFails then (.error .createDirFailed, st')
    else (.ok binPath, { st' with binDir := some (st.binDir.getD []) })

/-- Drop a leading occurrence of `pfx` from `cs` (Rust `str::strip_prefix`,
written with a deviating name for lexical reasons). -/
def stripPfx : List Char → List Char → Option (List Char)
  | [], s => some s
  | _ :: _, [] => none
  | p :: ps, c :: cs => if p = c then stripPfx ps cs else none

/-- The body of the `for entry in entries` loop of `list_installed_versions`:
skip non-regular files, strip the `<binary>-` file-name prefix, parse the
remainder as a version; accept the rest. -/
def entryToInstalled (binary : String) (binDirPath : Path) (e : DirEntry) :
    Option InstalledBinary :=
  if !e.isFile then none
  else
    match stripPfx (binary ++ "-").data e.name.data with
    | none => none
    | some versionStr =>
      match parseVersionL versionStr with
      | none => none
      | some v => some ⟨v, binDirPath ++ [e.name]⟩

/-- Ascending comparator used by `installed.sort_by(|a, b| a.version.cmp(&b.version))`. -/
def ibLe (a b : InstalledBinary) : Bool :=
  match versionCmp a.version b.version with
  | .gt => false
  | _ => true

/-- The scan-and-sort portion of `list_installed_versions` over the actual
directory entries. The stable ascending sort `sort_by(cmp)` is modelled by a
structurally recursive stable insertion sort over the same comparator. -/
def scanEntries (binary : String) (binDirPath : Path) (entries : List DirEntry) :
    List InstalledBinary :=
  List.insertionSort (fun a b => ibLe a b = true)
    (entries.filterMap (entryToInstalled binary binDirPath))

/-- Lines 28-73 of src/versions.rs, after `ensure_bin_dir`: the
does-not-exist early return (`!bin_dir.exists()`, and the `NotFound` arm of
`fs::read_dir`, both of which our state renders as `binDir = none`) yields
`Ok(vec![])`; other read errors propagate; otherwise scan and sort. -/
def readAndScan (binary : String) (binDirPath : Path) (st : FsState) :
    Except CatErr (List InstalledBinary) :=
  match st.binDir with
  | none => .ok []
  | some entries =>
    if st.readDirFails then .error .readDirFailed
    else .ok (scanEntries binary binDirPath entries)

/-- `list_installed_versions` from src/versions.rs. -/
def listInstalledVersions (binary : String) (st : FsState) :
    Except CatErr (List InstalledBinary) × FsState :=
  match ensureBinDir st with
  | (.error e, st') => (.error e, st')
  | (.ok binPath, st') => (readAndScan binary binPath st', st')

/-- `find_installed_version` from src/versions.rs: highest installed version
matching the requirement (scan the ascending list from the back). -/
def findInstalledVersion (binary : String) (vmatches : Version → Bool) (st : FsState) :
    Except CatErr (Option InstalledBinary) × FsState :=
  match listInstalledVersions binary st with
  | (.error e, st') => (.error e, st')
  | (.ok installed, st') => (.ok (installed.reverse.find? fun e => vmatches e.version), st')

/-- `latest_installed` from src/versions.rs: `installed.pop()` on the
ascending list, i.e. its last element. -/
def latestInstalled (binary : String) (st : FsState) :
    Except CatErr (Option InstalledBinary) × FsState :=
  match listInstalledVersions binary st with
  | (.error e, st') => (.error e, st')
  | (.ok installed, st') => (.ok installed.getLast?, st')

/-- `versioned_binary_path` from src/versions.rs (non-Windows branch):
ensure the bin dir and join the versioned file name. -/
def versionedBinaryPath (binary : String) (v : Version) (st : FsState) :
    Except CatErr Path × FsState :=
  match ensureBinDir st with
  | (.error e, st') => (.error e, st')
  | (.ok binPath, st') => (.ok (binPath ++ [versionedBinaryName binary v]), st')

/-! ## Install-root provider (src/paths.rs) -/

/-- Process environment and platform facts consumed by `get_install_dir`:
the `CARGOX_INSTALL_DIR` override, the platform data directory that
`ProjectDirs::from("", "", "cargox")` reports (if any), and the `HOME` /
`USERPROFILE` variables. -/
structure PathsEnv where
  cargoxInstallDir : Option String
  projectDataDir : Option Path
  homeVar : Option String
  userProfileVar : Option String

/-- Filesystem behaviour for `fs::create_dir_all` in src/paths.rs: which
paths fail to be created. -/
structure PathsFs where
  createFails : Path → Bool

/-- Errors of `get_install_dir`. -/
inductive PathsErr
  | createDataDirFailed
  | createFallbackFailed
  | noInstallDir
deriving DecidableEq, Repr

/-- `home_dir` from src/paths.rs: `HOME` or else `USERPROFILE`. -/
def homeDir (env : PathsEnv) : Option String :=
  env.homeVar.orElse fun _ => env.userProfileVar

/-- `PathBuf::from` on an environment-variable value: an opaque path. -/
def pathFromString (s : String) : Path := [s]

/-- `get_install_dir` from src/paths.rs, instrumented with the list of
`fs::create_dir_all` calls it performs. Branches in priority order:
explicit `CARGOX_INSTALL_DIR` override (returned as-is), the platform data
directory (created), the `~/.local/share/cargox` fallback (created). -/
def getInstallDir (env : PathsEnv) (fs : PathsFs) :
    Except PathsErr Path × List Path :=
  match env.cargoxInstallDir with
  | some p => (.ok (pathFromString p), [])
  | none =>
    match env.projectDataDir with
    | some dataDir =>
      if fs.createFails dataDir then (.error .createDataDirFailed, [dataDir])
      else (.ok dataDir, [dataDir])
    | none =>
      match homeDir env with
      | some h =>
        let fallback := pathFromString h ++ [".local", "share", "cargox"]
        if fs.createFails fallback then (.error .createFallbackFailed, [fallback])
        else (.ok fallback, [fallback])
      | none => (.error .noInstallDir, [])

/-! ## Sandboxed executor (src/executor.rs) -/

/-- Errors of the executor: canonicalization failures, the containment
refusal (`PathEscape`), and spawn failure (`ExecutionFailed`). -/
inductive ExecErr
  | noInstallDir
  | canonRootFailed
  | canonBinFailed
  | pathEscape
  | execFailed
deriving DecidableEq, Repr

/-- Environment of the executor: the canonicalization oracle
(`Path::canonicalize`, `none` = error), the install dir as resolved by
`paths::get_install_dir` (`none` = error), and the process-spawn oracle
(`Command::status`, `none` = spawn failure, otherwise the child's exit
code). -/
structure ExecEnv where
  canon : Path → Option Path
  installDir : Option Path
  spawn : Path → List String → Option Nat

/-- A recorded process spawn attempt (`cmd.status()`). -/
structure SpawnEvent where
  path : Path
  args : List String
deriving DecidableEq, Repr

/-- `ensure_binary_within_dir` from src/executor.rs: canonicalize the
install dir, canonicalize the binary path, and require that the canonical
binary path start with the canonical install dir. -/
def ensureBinaryWithinDir (env : ExecEnv) (binaryPath installDir : Path) :
    Except ExecErr Unit :=
  match env.canon installDir with
  | none => .error .canonRootFailed
  | some root =>
    match env.canon binaryPath with
    | none => .error .canonBinFailed
    | some binary =>
      if root.isPrefixOf binary then .ok ()
      else .error .pathEscape

/-- `ensure_within_install_dir` from src/executor.rs. -/
def ensureWithinInstallDir (env : ExecEnv) (binaryPath : Path) :
    Except ExecErr Unit :=
  match env.installDir with
  | none => .error .noInstallDir
  | some d => ensureBinaryWithinDir env binaryPath d

/-- `execute_binary` from src/executor.rs, instrumented with the spawn
attempts (`cmd.status()`) it performs. -/
def executeBinary (env : ExecEnv) (binaryPath : Path) (args : List String) :
    Except ExecErr Nat × List SpawnEvent :=
  match ensureWithinInstallDir env binaryPath with
  | .error e => (.error e, [])
  | .ok _ =>
    match env.spawn binaryPath args with
    | none => (.error .execFailed, [⟨binaryPath, args⟩])
    | some code => (.ok code, [⟨binaryPath, args⟩])

/-! ## Run-plan resolver (src/main.rs) -/

/-- A semver requirement, abstracted to its `matches` predicate (the
resolver and catalog only ever call `VersionReq::matches`). -/
structure VersionReq where
  vmatches : Version → Bool

/-- `VersionSpec` from src/target.rs as used by the resolver. -/
inductive VersionSpec
  | unspecified
  | latest
  | requirement (r : VersionReq)

/-- `Target` from src/target.rs as consumed by the resolver. -/
structure Target where
  crateName : String
  version : VersionSpec
  binary : String

/-- `RunPlan` from src/main.rs. -/
inductive RunPlan
  | useInstalled (path : Path)
  | installAndRun (version : Version)
deriving DecidableEq, Repr

/-- Resolver errors: catalog failures or a registry failure. -/
inductive ResolveErr
  | catalog (e : CatErr)
  | registry

/-- The remote registry oracle (src/registry.rs is an external collaborator;
the resolver calls `fetch_latest_version` and, with `Some(requirement)`,
`fetch_highest_matching_version`). `none` models a registry error. -/
structure Registry where
  latestVersion : String → Option Version
  highestMatchingVersion : String → VersionReq → Option Version

/-- A recorded call to the registry oracle. -/
inductive OracleCall
  | latest (crate : String)
  | highestMatching (crate : String) (req : VersionReq)

/-- `resolve_unspecified` from src/main.rs: unless `force`, reuse the latest
installed binary if any; otherwise fetch the latest remote version and plan
to install it. The result triple is (outcome, oracle calls, filesystem
state). -/
def resolveUnspecified (reg : Registry) (target : Target) (force : Bool)
    (st : FsState) : Except ResolveErr RunPlan × List OracleCall × FsState :=
  let remoteTail : FsState → Except ResolveErr RunPlan × List OracleCall × FsState :=
    fun st' =>
      match reg.latestVersion target.crateName with
      | none => (.error .registry, [.latest target.crateName], st')
      | some v => (.ok (.installAndRun v), [.latest target.crateName], st')
  if !force then
    match latestInstalled target.binary st with
    | (.error e, st') => (.error (.catalog e), [], st')
    | (.ok (some installed), st') => (.ok (.useInstalled installed.path), [], st')
    | (.ok none, st') => remoteTail st'
  else remoteTail st

/-- `resolve_latest` from src/main.rs: read the catalog, always fetch the
remote latest; under `force` install it; otherwise reuse an installed
version that is `>=` the remote latest, else install the remote latest. -/
def resolveLatest (reg : Registry) (target : Target) (force : Bool)
    (st : FsState) : Except ResolveErr RunPlan × List OracleCall × FsState :=
  match latestInstalled target.binary st with
  | (.error e, st') => (.error (.catalog e), [], st')
  | (.ok installedOpt, st') =>
    match reg.latestVersion target.crateName with
    | none => (.error .registry, [.latest target.crateName], st')
    | some remote =>
      if force then (.ok (.installAndRun remote), [.latest target.crateName], st')
      else
        match installedOpt with
        | some installed =>
          if versionGe installed.version remote then
            (.ok (.useInstalled installed.path), [.latest target.crateName], st')
          else (.ok (.installAndRun remote), [.latest target.crateName], st')
        | none => (.ok (.installAndRun remote), [.latest target.crateName], st')

/-- `resolve_requirement` from src/main.rs: unless `force`, reuse the
highest installed version matching the requirement; otherwise fetch the
highest matching remote version and plan to install it. -/
def resolveRequirement (reg : Registry) (target : Target) (force : Bool)
    (req : VersionReq) (st : FsState) :
    Except ResolveErr RunPlan × List OracleCall × FsState :=
  let remoteTail : FsState → Except ResolveErr RunPlan × List OracleCall × FsState :=
    fun st' =>
      match reg.highestMatchingVersion target.crateName req with
      | none => (.error .registry, [.highestMatching target.crateName req], st')
      | some v => (.ok (.installAndRun v), [.highestMatching target.crateName req], st')
  if !force then
    match findInstalledVersion target.binary req.vmatches st with
    | (.error e, st') => (.error (.catalog e), [], st')
    | (.ok (some installed), st') => (.ok (.useInstalled installed.path), [], st')
    | (.ok none, st') => remoteTail st'
  else remoteTail st

/-- `resolve_run_plan` from src/main.rs: dispatch on the version spec. -/
def resolveRunPlan (reg : Registry) (target : Target) (force : Bool)
    (st : FsState) : Except ResolveErr RunPlan × List OracleCall × FsState :=
  match target.version with
  | .unspecified => resolveUnspecified reg target force st
  | .latest => resolveLatest reg target force st
  | .requirement r => resolveRequirement reg target force r st

/-! ### Concrete states and environments for instantiating the theorems -/

/-- A concrete bin directory with two versioned binaries and one stray file. -/
def wEntries : List DirEntry :=
  [⟨"tool-0.2.0", true⟩, ⟨"tool-0.1.0", true⟩, ⟨"junk", true⟩]

/-- A concrete filesystem state whose bin directory holds `wEntries`. -/
def wSt : FsState := ⟨some ["root"], some wEntries, false, false, 0⟩

/-- The state `wSt` after one `ensure_bin_dir`. -/
def wSt' : FsState := ⟨some ["root"], some wEntries, false, false, 1⟩

/-- A state whose bin directory does not exist. -/
def wStNoDir : FsState := ⟨some ["root"], none, false, false, 0⟩

/-- The installed binary `tool-0.1.0`. -/
def wIB1 : InstalledBinary := ⟨⟨0, 1, 0, "", ""⟩, ["root", "bin", "tool-0.1.0"]⟩

/-- The installed binary `tool-0.2.0`. -/
def wIB2 : InstalledBinary := ⟨⟨0, 2, 0, "", ""⟩, ["root", "bin", "tool-0.2.0"]⟩

/-- The catalog listed from `wSt`. -/
def wList : List InstalledBinary := [wIB1, wIB2]

/-- A concrete requirement predicate: major version zero. -/
def wVm : Version → Bool := fun v => decide (v.major = 0)

/-- The requirement wrapping `wVm`. -/
def wReq : VersionReq := ⟨wVm⟩

/-- Version 1.6.0, used as the remote latest. -/
def wV16 : Version := ⟨1, 6, 0, "", ""⟩

/-- A registry whose latest version is 1.6.0 and whose highest match is
1.4.2. -/
def wReg : Registry := ⟨fun _ => some wV16, fun _ _ => some ⟨1, 4, 2, "", ""⟩⟩

/-- A registry that always fails. -/
def wRegErr : Registry := ⟨fun _ => none, fun _ _ => none⟩

/-- Target for `tool` with an unspecified version. -/
def wTu : Target := ⟨"tool", .unspecified, "tool"⟩

/-- Target for `tool` with the latest version spec. -/
def wTl : Target := ⟨"tool", .latest, "tool"⟩

/-- Target for `tool` with the `wReq` requirement. -/
def wTr : Target := ⟨"tool", .requirement wReq, "tool"⟩

/-- An executor environment where `lnk` canonicalizes to a path outside the
root (a symlink escaping the sandbox). -/
def wExecEnvEscape : ExecEnv :=
  ⟨fun q => if q = ["lnk"] then some ["etc", "passwd"] else some q,
   some ["root"], fun _ _ => some 0⟩

/-- An executor environment with identity canonicalization. -/
def wExecEnvRoot : ExecEnv := ⟨fun q => some q, some ["root"], fun _ _ => some 7⟩

/-- A paths environment with no override and a platform data directory. -/
def wPathsEnvData : PathsEnv := ⟨none, some ["data", "cargox"], some "/home/u", none⟩

/-- A filesystem in which directory creation always succeeds. -/
def wPathsFs : PathsFs := ⟨fun _ => false⟩

/-! ## Lawfulness of the version comparator -/

theorem listCmp_oriented (c : α → α → Ordering) [Batteries.OrientedCmp c] :
    Batteries.OrientedCmp (listCmp c) := by
  refine ⟨fun x y => ?_⟩
  induction x generalizing y with
  | nil => cases y <;> rfl
  | cons a as ih =>
    cases y with
    | nil => rfl
    | cons b bs =>
      show ((c a b).then (listCmp c as bs)).swap = (c b a).then (listCmp c bs as)
      rw [Ordering.swap_then, Batteries.OrientedCmp.symm a b, ih bs]

theorem listCmp_trans (c : α → α → Ordering) [Batteries.TransCmp c] :
    Batteries.TransCmp (listCmp c) := by
  refine { symm := (listCmp_oriented c).symm, le_trans := ?_ }
  intro x y z
  induction x generalizing y z with
  | nil => intro _ _; cases z <;> simp [listCmp]
  | cons a as ih =>
    cases y with
    | nil => intro h1 _; exact absurd rfl h1
    | cons b bs =>
      cases z with
      | nil => intro _ h2; exact absurd rfl h2
      | cons d ds =>
        intro h1 h2
        simp only [listCmp, ne_eq, Ordering.then_eq_gt, not_or, not_and] at h1 h2 ⊢
        refine ⟨Batteries.TransCmp.le_trans h1.1 h2.1, fun e1 e2 => ?_⟩
        match ab : c a b with
        | .gt => exact h1.1 ab
        | .eq =>
          exact ih (h1.2 ab) (h2.2 (Batteries.TransCmp.cmp_congr_left ab ▸ e1)) e2
        | .lt =>
          exact h2.1 ((Batteries.OrientedCmp.cmp_eq_gt).2
            (Batteries.TransCmp.cmp_congr_left e1 ▸ ab))

theorem orientedCmp_comap (f : β → α) (c : α → α → Ordering)
    [Batteries.OrientedCmp c] : Batteries.OrientedCmp (fun x y => c (f x) (f y)) :=
  ⟨fun x y => Batteries.OrientedCmp.symm (f x) (f y)⟩

theorem transCmp_comap (f : β → α) (c : α → α → Ordering)
    [inst : Batteries.TransCmp c] : Batteries.TransCmp (fun x y => c (f x) (f y)) :=
  { (orientedCmp_comap f c) with
    le_trans := fun {x y z} h1 h2 =>
      @Batteries.TransCmp.le_trans _ c inst (f x) (f y) (f z) h1 h2 }

theorem charCmp_trans : Batteries.TransCmp charCmp :=
  transCmp_comap Char.toNat compare

theorem idCmp_trans : Batteries.TransCmp idCmp := by
  haveI := charCmp_trans
  haveI := listCmp_trans charCmp
  unfold idCmp
  infer_instance

theorem identsCmp_trans : Batteries.TransCmp identsCmp := by
  haveI := idCmp_trans
  exact listCmp_trans idCmp

theorem preCmp_trans : Batteries.TransCmp preCmp := by
  haveI := identsCmp_trans
  haveI : Batteries.TransCmp
      (fun a b : String => identsCmp (a.data.splitOn '.') (b.data.splitOn '.')) :=
    transCmp_comap (fun s : String => s.data.splitOn '.') identsCmp
  unfold preCmp
  infer_instance

theorem buildCmp_trans : Batteries.TransCmp buildCmp := by
  haveI := identsCmp_trans
  exact transCmp_comap (fun s : String => s.data.splitOn '.') identsCmp

theorem versionCmp_trans : Batteries.TransCmp versionCmp := by
  haveI := preCmp_trans
  haveI := buildCmp_trans
  haveI : Batteries.TransCmp (fun a b : Version => preCmp a.pre b.pre) :=
    transCmp_comap Version.pre preCmp
  haveI : Batteries.TransCmp (fun a b : Version => buildCmp a.build b.build) :=
    transCmp_comap Version.build buildCmp
  unfold versionCmp
  infer_instance

theorem charCmp_eq {a b : Char} (h : charCmp a b = .eq) : a = b := by
  unfold charCmp at h
  have hn : a.toNat = b.toNat := Nat.compare_eq_eq.mp h
  unfold Char.toNat at hn
  exact Char.eq_of_val_eq (UInt32.toNat.inj hn)

theorem listCmp_eq {c : α → α → Ordering} (hc : ∀ x y, c x y = .eq → x = y) :
    ∀ {x y : List α}, listCmp c x y = .eq → x = y := by
  intro x
  induction x with
  | nil => intro y h; cases y with
    | nil => rfl
    | cons b bs => exact absurd h (by simp [listCmp])
  | cons a as ih =>
    intro y h
    cases y with
    | nil => exact absurd h (by simp [listCmp])
    | cons b bs =>
      have h' := Ordering.then_eq_eq.mp h
      rw [hc a b h'.1, ih h'.2]

theorem idCmp_eq {a b : List Char} (h : idCmp a b = .eq) : a = b := by
  simp only [idCmp, compareLex, Ordering.then_eq_eq] at h
  exact listCmp_eq (fun x y => charCmp_eq) h.2.2.2

theorem identsCmp_eq {a b : List (List Char)} (h : identsCmp a b = .eq) : a = b :=
  listCmp_eq (fun x y => idCmp_eq) h

theorem preCmp_eq {a b : String} (h : preCmp a b = .eq) : a = b := by
  simp only [preCmp, compareLex, Ordering.then_eq_eq] at h
  have hs := identsCmp_eq h.2
  apply String.ext
  rw [← List.intercalate_splitOn a.data '.', ← List.intercalate_splitOn b.data '.', hs]

theorem buildCmp_eq {a b : String} (h : buildCmp a b = .eq) : a = b := by
  have hs := identsCmp_eq h
  apply String.ext
  rw [← List.intercalate_splitOn a.data '.', ← List.intercalate_splitOn b.data '.', hs]

theorem versionCmp_eq {a b : Version} (h : versionCmp a b = .eq) : a = b := by
  simp only [versionCmp, compareLex, compareOn, Ordering.then_eq_eq] at h
  obtain ⟨h1, h2, h3, h4, h5⟩ := h
  cases a; cases b
  simp only [Version.mk.injEq]
  exact ⟨Nat.compare_eq_eq.mp h1, Nat.compare_eq_eq.mp h2, Nat.compare_eq_eq.mp h3,
    preCmp_eq h4, buildCmp_eq h5⟩

theorem versionCmp_refl (a : Version) : versionCmp a a = .eq := by
  haveI := versionCmp_trans
  exact Batteries.OrientedCmp.cmp_refl

/-! ## Uniqueness of numeric identifiers (no-leading-zero decimal strings) -/

theorem char_toNat_inj {a b : Char} (h : a.toNat = b.toNat) : a = b := by
  unfold Char.toNat at h
  exact Char.eq_of_val_eq (UInt32.toNat.inj h)

theorem isDigitC_bounds {c : Char} (h : isDigitC c = true) :
    48 ≤ c.toNat ∧ c.toNat ≤ 57 := by
  simpa [isDigitC] using h

theorem digitVal_lt_ten {c : Char} (h : isDigitC c = true) : digitVal c < 10 := by
  have := isDigitC_bounds h
  unfold digitVal
  omega

theorem digitVal_inj {a b : Char} (ha : isDigitC a = true) (hb : isDigitC b = true)
    (h : digitVal a = digitVal b) : a = b := by
  have h1 := isDigitC_bounds ha
  have h2 := isDigitC_bounds hb
  unfold digitVal at h
  exact char_toNat_inj (by omega)

theorem digitVal_ne_zero {c : Char} (h : isDigitC c = true) (hne : c ≠ '0') :
    digitVal c ≠ 0 := by
  have h1 := isDigitC_bounds h
  have : c.toNat ≠ 48 := fun he => hne (char_toNat_inj (he.trans (by decide)))
  unfold digitVal
  omega

theorem map_digitVal_inj : ∀ {a b : List Char}, a.all isDigitC = true →
    b.all isDigitC = true → a.map digitVal = b.map digitVal → a = b := by
  intro a
  induction a with
  | nil => intro b _ _ h; cases b with
    | nil => rfl
    | cons x xs => exact absurd h (by simp)
  | cons x xs ih =>
    intro b ha hb h
    cases b with
    | nil => exact absurd h (by simp)
    | cons y ys =>
      simp only [List.map_cons, List.cons.injEq] at h
      simp only [List.all_cons, Bool.and_eq_true] at ha hb
      rw [digitVal_inj ha.1 hb.1 h.1, ih ha.2 hb.2 h.2]

theorem numVal_foldl (cs : List Char) : ∀ a : Nat,
    cs.foldl (fun a c => 10 * a + digitVal c) a = a * 10 ^ cs.length + numVal cs := by
  induction cs with
  | nil => intro a; simp [numVal]
  | cons c cs ih =>
    intro a
    have h1 : numVal (c :: cs) = cs.foldl (fun a c => 10 * a + digitVal c)
        (10 * 0 + digitVal c) := rfl
    have h2 : (c :: cs).foldl (fun a c => 10 * a + digitVal c) a
        = cs.foldl (fun a c => 10 * a + digitVal c) (10 * a + digitVal c) := rfl
    rw [h1, h2, ih (10 * a + digitVal c), ih (10 * 0 + digitVal c)]
    simp only [List.length_cons]
    ring

theorem numVal_cons (c : Char) (cs : List Char) :
    numVal (c :: cs) = digitVal c * 10 ^ cs.length + numVal cs := by
  show cs.foldl _ (10 * 0 + digitVal c) = _
  rw [numVal_foldl cs (10 * 0 + digitVal c)]
  ring

theorem numVal_eq_ofDigits : ∀ cs : List Char,
    numVal cs = Nat.ofDigits 10 ((cs.map digitVal).reverse) := by
  intro cs
  induction cs with
  | nil => simp [numVal, Nat.ofDigits]
  | cons c cs ih =>
    rw [numVal_cons, List.map_cons, List.reverse_cons, Nat.ofDigits_append,
      Nat.ofDigits_singleton, ← ih]
    simp only [List.length_reverse, List.length_map]
    ring

theorem validNum_parts {cs : List Char} (h : validNum cs = true) :
    cs ≠ [] ∧ cs.all isDigitC = true ∧ (cs.head? ≠ some '0' ∨ cs = ['0']) := by
  simp only [validNum, Bool.and_eq_true, Bool.not_eq_true', List.isEmpty_eq_false,
    Bool.or_eq_true, decide_eq_true_eq] at h
  exact ⟨h.1.1, h.1.2, h.2⟩

theorem digits_eq_of_validNum {cs : List Char} (hne : cs ≠ [])
    (hall : cs.all isDigitC = true) (hhead : cs.head? ≠ some '0') :
    Nat.digits 10 (numVal cs) = (cs.map digitVal).reverse := by
  rw [numVal_eq_ofDigits]
  apply Nat.digits_ofDigits 10 (by omega)
  · intro l hl
    rw [List.mem_reverse, List.mem_map] at hl
    obtain ⟨c, hc, rfl⟩ := hl
    exact digitVal_lt_ten (List.all_eq_true.mp hall c hc)
  · intro hL
    cases cs with
    | nil => exact absurd rfl hne
    | cons c cs' =>
      have hc : c ≠ '0' := fun he => hhead (by rw [List.head?_cons, he])
      have hd : isDigitC c = true := List.all_eq_true.mp hall c (by simp)
      have h1 : ((c :: cs').map digitVal).reverse.getLast? = some (digitVal c) := by
        rw [List.getLast?_reverse]
        simp
      rw [List.getLast?_eq_getLast _ hL] at h1
      rw [Option.some.inj h1]
      exact digitVal_ne_zero hd hc

theorem validNum_inj {a b : List Char} (ha : validNum a = true)
    (hb : validNum b = true) (h : numVal a = numVal b) : a = b := by
  obtain ⟨hane, haall, hahead⟩ := validNum_parts ha
  obtain ⟨hbne, hball, hbhead⟩ := validNum_parts hb
  have zcase : ∀ {cs : List Char}, cs ≠ [] → cs.all isDigitC = true →
      cs.head? ≠ some '0' → numVal cs = 0 → False := by
    intro cs hne hall hhead h0
    have hd := digits_eq_of_validNum hne hall hhead
    rw [h0, Nat.digits_zero] at hd
    have : cs.map digitVal = [] := by
      have := congrArg List.reverse hd
      simpa using this.symm
    exact hne (List.map_eq_nil_iff.mp this)
  rcases hahead with hahead | haz
  · rcases hbhead with hbhead | hbz
    · have hda := digits_eq_of_validNum hane haall hahead
      have hdb := digits_eq_of_validNum hbne hball hbhead
      rw [h] at hda
      have hrev := hda.symm.trans hdb
      have hmap : a.map digitVal = b.map digitVal := by
        have := congrArg List.reverse hrev
        simpa using this
      exact map_digitVal_inj haall hball hmap
    · subst hbz
      have h0 : numVal a = 0 := by rw [h]; decide
      exact (zcase hane haall hahead h0).elim
  · subst haz
    rcases hbhead with hbhead | hbz
    · have h0 : numVal b = 0 := by rw [← h]; decide
      exact (zcase hbne hball hbhead h0).elim
    · subst hbz; rfl

/-! ## Inversion and injectivity of the version parser -/

theorem splitAtFirst_none {sep : Char} : ∀ (cs a : List Char),
    splitAtFirst sep cs = (a, none) → cs = a ∧ sep ∉ a := by
  intro cs
  induction cs with
  | nil =>
    intro a h
    simp only [splitAtFirst, Prod.mk.injEq] at h
    refine ⟨h.1, ?_⟩
    rw [← h.1]
    simp
  | cons c cs ih =>
    intro a h
    simp only [splitAtFirst] at h
    by_cases hc : c = sep
    · rw [if_pos hc] at h
      exact Option.noConfusion (congrArg Prod.snd h)
    · rw [if_neg hc] at h
      have h1 : c :: (splitAtFirst sep cs).1 = a := congrArg Prod.fst h
      have h2 : (splitAtFirst sep cs).2 = none := congrArg Prod.snd h
      obtain ⟨hcs, hmem⟩ := ih (splitAtFirst sep cs).1 (by rw [← h2])
      constructor
      · rw [← h1, ← hcs]
      · rw [← h1]
        intro hm
        rcases List.mem_cons.mp hm with he | hm'
        · exact hc he.symm
        · exact hmem hm'

theorem splitAtFirst_some {sep : Char} : ∀ (cs a r : List Char),
    splitAtFirst sep cs = (a, some r) → cs = a ++ sep :: r ∧ sep ∉ a := by
  intro cs
  induction cs with
  | nil =>
    intro a r h
    exact Option.noConfusion (congrArg Prod.snd h)
  | cons c cs ih =>
    intro a r h
    simp only [splitAtFirst] at h
    by_cases hc : c = sep
    · rw [if_pos hc] at h
      have h1 : ([] : List Char) = a := congrArg Prod.fst h
      have h2 : some cs = some r := congrArg Prod.snd h
      subst hc
      rw [← h1, Option.some.inj h2]
      exact ⟨rfl, by simp⟩
    · rw [if_neg hc] at h
      have h1 : c :: (splitAtFirst sep cs).1 = a := congrArg Prod.fst h
      have h2 : (splitAtFirst sep cs).2 = some r := congrArg Prod.snd h
      obtain ⟨hcs, hmem⟩ := ih (splitAtFirst sep cs).1 r (by rw [← h2])
      constructor
      · rw [← h1, List.cons_append, ← hcs]
      · rw [← h1]
        intro hm
        rcases List.mem_cons.mp hm with he | hm'
        · exact hc he.symm
        · exact hmem hm'

theorem stripPfx_some : ∀ {p s r : List Char}, stripPfx p s = some r → s = p ++ r := by
  intro p
  induction p with
  | nil =>
    intro s r h
    simpa using Option.some.inj h
  | cons x xs ih =>
    intro s r h
    cases s with
    | nil => exact Option.noConfusion h
    | cons c cs =>
      simp only [stripPfx] at h
      by_cases hc : x = c
      · rw [if_pos hc] at h
        rw [List.cons_append, ← hc, ih h]
      · rw [if_neg hc] at h
        exact Option.noConfusion h

theorem parseVersionL_decomp {cs : List Char} {v : Version}
    (h : parseVersionL cs = some v) :
    ∃ ma mi pa preT buildT : List Char,
      validNum ma = true ∧ validNum mi = true ∧ validNum pa = true ∧
      v.major = numVal ma ∧ v.minor = numVal mi ∧ v.patch = numVal pa ∧
      ((v.pre = "" ∧ preT = []) ∨ (v.pre.data ≠ [] ∧ preT = '-' :: v.pre.data)) ∧
      ((v.build = "" ∧ buildT = []) ∨ (v.build.data ≠ [] ∧ buildT = '+' :: v.build.data)) ∧
      cs = ((ma ++ '.' :: (mi ++ '.' :: pa)) ++ preT) ++ buildT := by
  simp only [parseVersionL] at h
  rcases hPlus : splitAtFirst '+' cs with ⟨beforePlus, buildOpt⟩
  rw [hPlus] at h
  rcases hDash : splitAtFirst '-' beforePlus with ⟨core, preOpt⟩
  rw [hDash] at h
  rcases hDot1 : splitAtFirst '.' core with ⟨ma, rest1Opt⟩
  rw [hDot1] at h
  cases rest1Opt with
  | none => exact absurd h (by simp)
  | some rest1 =>
    rcases hDot2 : splitAtFirst '.' rest1 with ⟨mi, paOpt⟩
    simp only [hDot2] at h
    cases paOpt with
    | none => exact absurd h (by simp)
    | some pa =>
      simp only at h
      by_cases hval : (validNum ma && validNum mi && validNum pa) = true
      · rw [if_pos hval] at h
        simp only [Bool.and_eq_true] at hval
        rcases hpre : parsePreOpt preOpt with _ | p
        · rw [hpre] at h; exact absurd h (by simp)
        · rcases hbuild : parseBuildOpt buildOpt with _ | b
          · rw [hpre, hbuild] at h; exact absurd h (by simp)
          · rw [hpre, hbuild] at h
            have hv : v = ⟨numVal ma, numVal mi, numVal pa, ⟨p⟩, ⟨b⟩⟩ :=
              (Option.some.inj h).symm
            -- reconstruct the input from the three splits
            have hcore : core = ma ++ '.' :: (mi ++ '.' :: pa) := by
              have h1 := splitAtFirst_some _ _ _ hDot1
              have h2 := splitAtFirst_some _ _ _ hDot2
              rw [h1.1, h2.1]
            -- prerelease tail
            have hpreT : (preOpt = none ∧ p = []) ∨
                (∃ pr, preOpt = some pr ∧ p = pr ∧ p ≠ []) := by
              cases preOpt with
              | none => exact Or.inl ⟨rfl, (Option.some.inj hpre).symm⟩
              | some pr =>
                simp only [parsePreOpt] at hpre
                by_cases hvp : validPre pr = true
                · rw [if_pos hvp] at hpre
                  refine Or.inr ⟨pr, rfl, (Option.some.inj hpre).symm, ?_⟩
                  rw [(Option.some.inj hpre).symm]
                  intro hnil
                  rw [hnil] at hvp
                  exact absurd hvp (by decide)
                · rw [if_neg hvp] at hpre; exact absurd hpre (by simp)
            have hbuildT : (buildOpt = none ∧ b = []) ∨
                (∃ br, buildOpt = some br ∧ b = br ∧ b ≠ []) := by
              cases buildOpt with
              | none => exact Or.inl ⟨rfl, (Option.some.inj hbuild).symm⟩
              | some br =>
                simp only [parseBuildOpt] at hbuild
                by_cases hvb : validBuild br = true
                · rw [if_pos hvb] at hbuild
                  refine Or.inr ⟨br, rfl, (Option.some.inj hbuild).symm, ?_⟩
                  rw [(Option.some.inj hbuild).symm]
                  intro hnil
                  rw [hnil] at hvb
                  exact absurd hvb (by decide)
                · rw [if_neg hvb] at hbuild; exact absurd hbuild (by simp)
            rcases hpreT with ⟨hpo, hpnil⟩ | ⟨pr, hpo, hppr, hpne⟩
            · rcases hbuildT with ⟨hbo, hbnil⟩ | ⟨br, hbo, hbbr, hbne⟩
              · refine ⟨ma, mi, pa, [], [], hval.1.1, hval.1.2, hval.2, by rw [hv],
                  by rw [hv], by rw [hv], Or.inl ⟨by rw [hv, hpnil], rfl⟩,
                  Or.inl ⟨by rw [hv, hbnil], rfl⟩, ?_⟩
                rw [hpo] at hDash
                rw [hbo] at hPlus
                rw [(splitAtFirst_none _ _ hPlus).1, (splitAtFirst_none _ _ hDash).1, hcore]
                simp
              · refine ⟨ma, mi, pa, [], '+' :: br, hval.1.1, hval.1.2, hval.2,
                  by rw [hv], by rw [hv], by rw [hv],
                  Or.inl ⟨by rw [hv, hpnil], rfl⟩,
                  Or.inr ⟨by rw [hv]; exact hbne, by rw [hv]; rw [hbbr]⟩, ?_⟩
                rw [hpo] at hDash
                rw [hbo] at hPlus
                rw [(splitAtFirst_some _ _ _ hPlus).1, (splitAtFirst_none _ _ hDash).1, hcore]
                simp
            · rcases hbuildT with ⟨hbo, hbnil⟩ | ⟨br, hbo, hbbr, hbne⟩
              · refine ⟨ma, mi, pa, '-' :: pr, [], hval.1.1, hval.1.2, hval.2,
                  by rw [hv], by rw [hv], by rw [hv],
                  Or.inr ⟨by rw [hv]; exact hpne, by rw [hv]; rw [hppr]⟩,
                  Or.inl ⟨by rw [hv, hbnil], rfl⟩, ?_⟩
                rw [hpo] at hDash
                rw [hbo] at hPlus
                rw [(splitAtFirst_none _ _ hPlus).1, (splitAtFirst_some _ _ _ hDash).1, hcore]
                simp
              · refine ⟨ma, mi, pa, '-' :: pr, '+' :: br, hval.1.1, hval.1.2, hval.2,
                  by rw [hv], by rw [hv], by rw [hv],
                  Or.inr ⟨by rw [hv]; exact hpne, by rw [hv]; rw [hppr]⟩,
                  Or.inr ⟨by rw [hv]; exact hbne, by rw [hv]; rw [hbbr]⟩, ?_⟩
                rw [hbo] at hPlus
                rw [hpo] at hDash
                rw [(splitAtFirst_some _ _ _ hPlus).1, (splitAtFirst_some _ _ _ hDash).1, hcore]
                try simp
      · rw [if_neg hval] at h
        exact absurd h (by simp)

theorem parseVersionL_inj {cs1 cs2 : List Char} {v : Version}
    (h1 : parseVersionL cs1 = some v) (h2 : parseVersionL cs2 = some v) :
    cs1 = cs2 := by
  obtain ⟨ma1, mi1, pa1, pT1, bT1, hva1, hvi1, hvp1, hma1, hmi1, hpa1, hpre1, hb1, he1⟩ :=
    parseVersionL_decomp h1
  obtain ⟨ma2, mi2, pa2, pT2, bT2, hva2, hvi2, hvp2, hma2, hmi2, hpa2, hpre2, hb2, he2⟩ :=
    parseVersionL_decomp h2
  have hmaeq : ma1 = ma2 := validNum_inj hva1 hva2 (by rw [← hma1, ← hma2])
  have hmieq : mi1 = mi2 := validNum_inj hvi1 hvi2 (by rw [← hmi1, ← hmi2])
  have hpaeq : pa1 = pa2 := validNum_inj hvp1 hvp2 (by rw [← hpa1, ← hpa2])
  have hpTeq : pT1 = pT2 := by
    rcases hpre1 with ⟨hp1, hpt1⟩ | ⟨hp1, hpt1⟩ <;>
      rcases hpre2 with ⟨hp2, hpt2⟩ | ⟨hp2, hpt2⟩
    · rw [hpt1, hpt2]
    · exact absurd (by rw [hp1]) hp2
    · exact absurd (by rw [hp2]) hp1
    · rw [hpt1, hpt2]
  have hbTeq : bT1 = bT2 := by
    rcases hb1 with ⟨hq1, hbt1⟩ | ⟨hq1, hbt1⟩ <;>
      rcases hb2 with ⟨hq2, hbt2⟩ | ⟨hq2, hbt2⟩
    · rw [hbt1, hbt2]
    · exact absurd (by rw [hq1]) hq2
    · exact absurd (by rw [hq2]) hq1
    · rw [hbt1, hbt2]
  rw [he1, he2, hmaeq, hmieq, hpaeq, hpTeq, hbTeq]

/-! ## Catalog lemmas -/

theorem entryToInstalled_some_iff {binary : String} {bp : Path} {e : DirEntry}
    {ib : InstalledBinary} :
    entryToInstalled binary bp e = some ib ↔
      e.isFile = true ∧ ∃ s, stripPfx (binary ++ "-").data e.name.data = some s ∧
        parseVersionL s = some ib.version ∧ ib.path = bp ++ [e.name] := by
  unfold entryToInstalled
  constructor
  · intro h
    by_cases hf : e.isFile = true
    · simp only [hf, Bool.not_true, Bool.false_eq_true, if_false] at h
      rcases hstrip : stripPfx (binary ++ "-").data e.name.data with _ | s
      · simp only [hstrip] at h
        exact Option.noConfusion h
      · simp only [hstrip] at h
        rcases hparse : parseVersionL s with _ | v
        · simp only [hparse] at h
          exact Option.noConfusion h
        · simp only [hparse] at h
          have hib := Option.some.inj h
          refine ⟨hf, s, rfl, ?_, ?_⟩
          · rw [← hib]; exact hparse
          · rw [← hib]
    · simp only [Bool.not_eq_true] at hf
      simp only [hf, Bool.not_false, if_true] at h
      exact Option.noConfusion h
  · rintro ⟨hf, s, hstrip, hparse, hpath⟩
    cases ib with
    | mk version path =>
      simp only [hf, Bool.not_true, Bool.false_eq_true, if_false, hstrip, hparse,
        Option.some.injEq, InstalledBinary.mk.injEq]
      exact ⟨by trivial, hpath.symm⟩

theorem entryToInstalled_name_eq {binary : String} {bp : Path} {e1 e2 : DirEntry}
    {ib1 ib2 : InstalledBinary}
    (h1 : entryToInstalled binary bp e1 = some ib1)
    (h2 : entryToInstalled binary bp e2 = some ib2)
    (hv : ib1.version = ib2.version) : e1.name = e2.name := by
  obtain ⟨_, s1, hs1, hp1, _⟩ := entryToInstalled_some_iff.mp h1
  obtain ⟨_, s2, hs2, hp2, _⟩ := entryToInstalled_some_iff.mp h2
  rw [hv] at hp1
  have hseq : s1 = s2 := parseVersionL_inj hp1 hp2
  apply String.ext
  rw [stripPfx_some hs1, stripPfx_some hs2, hseq]

theorem filterMap_nodup_versions (binary : String) (bp : Path) :
    ∀ {entries : List DirEntry}, (entries.map DirEntry.name).Nodup →
    ((entries.filterMap (entryToInstalled binary bp)).map
      InstalledBinary.version).Nodup := by
  intro entries
  induction entries with
  | nil => intro _; simp
  | cons e rest ih =>
    intro hnodup
    simp only [List.map_cons, List.nodup_cons] at hnodup
    rcases he : entryToInstalled binary bp e with _ | ib
    · rw [List.filterMap_cons_none he]
      exact ih hnodup.2
    · rw [List.filterMap_cons_some he]
      rw [List.map_cons, List.nodup_cons]
      refine ⟨?_, ih hnodup.2⟩
      intro hmem
      rw [List.mem_map] at hmem
      obtain ⟨ib', hib', hveq⟩ := hmem
      rw [List.mem_filterMap] at hib'
      obtain ⟨e', he'mem, he'⟩ := hib'
      have hname : e.name = e'.name := entryToInstalled_name_eq he he' hveq.symm
      exact hnodup.1 (hname ▸ List.mem_map_of_mem DirEntry.name he'mem)

theorem ibLe_iff {a b : InstalledBinary} :
    ibLe a b = true ↔ versionCmp a.version b.version ≠ .gt := by
  unfold ibLe
  cases h : versionCmp a.version b.version <;> simp

theorem ibLe_trans : ∀ a b c : InstalledBinary,
    ibLe a b = true → ibLe b c = true → ibLe a c = true := by
  intro a b c h1 h2
  haveI := versionCmp_trans
  exact ibLe_iff.mpr (Batteries.TransCmp.le_trans (ibLe_iff.mp h1) (ibLe_iff.mp h2))

theorem ibLe_total : ∀ a b : InstalledBinary, (ibLe a b || ibLe b a) = true := by
  intro a b
  haveI := versionCmp_trans
  rcases h : versionCmp a.version b.version with _ | _ | _
  · have h1 : ibLe a b = true := ibLe_iff.mpr (by rw [h]; simp)
    rw [h1]; simp
  · have h1 : ibLe a b = true := ibLe_iff.mpr (by rw [h]; simp)
    rw [h1]; simp
  · have h1 : ibLe b a = true :=
      ibLe_iff.mpr (by rw [Batteries.OrientedCmp.cmp_eq_gt.mp h]; simp)
    rw [h1]; simp

theorem scanEntries_sorted (binary : String) (bp : Path) (entries : List DirEntry) :
    (scanEntries binary bp entries).Pairwise (fun a b => ibLe a b = true) := by
  haveI : IsTotal InstalledBinary (fun a b => ibLe a b = true) :=
    ⟨fun a b => by
      rcases Bool.or_eq_true .. |>.mp (ibLe_total a b) with h | h
      · exact Or.inl h
      · exact Or.inr h⟩
  haveI : IsTrans InstalledBinary (fun a b => ibLe a b = true) :=
    ⟨fun a b c => ibLe_trans a b c⟩
  exact List.sorted_insertionSort _ _

theorem scanEntries_perm (binary : String) (bp : Path) (entries : List DirEntry) :
    (scanEntries binary bp entries).Perm
      (entries.filterMap (entryToInstalled binary bp)) :=
  List.perm_insertionSort _ _

theorem scanEntries_mem_iff {binary : String} {bp : Path} {entries : List DirEntry}
    {ib : InstalledBinary} :
    ib ∈ scanEntries binary bp entries ↔
      ∃ e ∈ entries, entryToInstalled binary bp e = some ib := by
  rw [(scanEntries_perm binary bp entries).mem_iff]
  exact List.mem_filterMap

theorem scanEntries_strict {binary : String} {bp : Path} {entries : List DirEntry}
    (hnodup : (entries.map DirEntry.name).Nodup) :
    (scanEntries binary bp entries).Pairwise
      (fun a b => versionCmp a.version b.version = .lt) := by
  have hs := scanEntries_sorted binary bp entries
  have hperm := scanEntries_perm binary bp entries
  have hnv := filterMap_nodup_versions binary bp hnodup
  have hnv' : ((scanEntries binary bp entries).map InstalledBinary.version).Nodup :=
    ((hperm.map InstalledBinary.version).symm).nodup hnv
  have hne : (scanEntries binary bp entries).Pairwise
      (fun a b => a.version ≠ b.version) := by
    exact List.pairwise_map.mp hnv'
  refine (hs.and hne).imp ?_
  intro a b hab
  rcases hcmp : versionCmp a.version b.version with _ | _ | _
  · rfl
  · exact absurd (versionCmp_eq hcmp) hab.2
  · exact absurd hcmp (ibLe_iff.mp hab.1)

theorem find_rev_spec {l : List InstalledBinary}
    (hs : l.Pairwise (fun a b => ibLe a b = true)) (vm : Version → Bool) :
    (∀ ib, l.reverse.find? (fun e => vm e.version) = some ib →
       ib ∈ l ∧ vm ib.version = true ∧
       ∀ x ∈ l, vm x.version = true → versionCmp x.version ib.version ≠ .gt)
    ∧ ((∃ x ∈ l, vm x.version = true) →
       ∃ ib, l.reverse.find? (fun e => vm e.version) = some ib)
    ∧ ((∀ x ∈ l, vm x.version = false) →
       l.reverse.find? (fun e => vm e.version) = none) := by
  refine ⟨?_, ?_, ?_⟩
  · intro ib hib
    obtain ⟨hp, as, bs, hdec, hnone⟩ := List.find?_eq_some.mp hib
    have hmem : ib ∈ l := by
      rw [← List.mem_reverse, hdec]
      simp
    refine ⟨hmem, hp, ?_⟩
    intro x hx hvx
    have hrev : l.reverse.Pairwise (fun a b => ibLe b a = true) := by
      rw [List.pairwise_reverse]
      exact hs
    rw [hdec] at hrev
    have hx' : x ∈ l.reverse := List.mem_reverse.mpr hx
    rw [hdec] at hx'
    rcases List.mem_append.mp hx' with hxas | hxtail
    · have := hnone x hxas
      rw [hvx] at this
      exact absurd this (by simp)
    · rcases List.mem_cons.mp hxtail with hxe | hxbs
      · rw [hxe, versionCmp_refl]
        simp
      · have hp2 := (List.pairwise_append.mp hrev).2.1
        have := (List.pairwise_cons.mp hp2).1 x hxbs
        exact ibLe_iff.mp this
  · intro ⟨x, hx, hvx⟩
    rcases hfind : l.reverse.find? (fun e => vm e.version) with _ | ib
    · rw [List.find?_eq_none] at hfind
      have := hfind x (List.mem_reverse.mpr hx)
      rw [hvx] at this
      exact absurd rfl this
    · exact ⟨ib, hfind⟩
  · intro hall
    rw [List.find?_eq_none]
    intro x hx
    rw [hall x (List.mem_reverse.mp hx)]
    simp

theorem ensureBinDir_ok_inv {st : FsState} {p : Path} {st' : FsState}
    (h : ensureBinDir st = (.ok p, st')) :
    ∃ d, st.getInstallDir = some d ∧ st.createFails = false ∧ p = d ++ ["bin"] ∧
      st' = { st with createCalls := st.createCalls + 1,
                      binDir := some (st.binDir.getD []) } := by
  unfold ensureBinDir at h
  rcases hgd : st.getInstallDir with _ | d
  · simp only [hgd] at h
    exact Except.noConfusion (congrArg Prod.fst h)
  · simp only [hgd] at h
    by_cases hcf : st.createFails = true
    · rw [if_pos hcf] at h
      exact Except.noConfusion (congrArg Prod.fst h)
    · simp only [Bool.not_eq_true] at hcf
      rw [if_neg (by rw [hcf]; simp)] at h
      refine ⟨d, rfl, hcf, ?_, ?_⟩
      · exact (Except.ok.inj (congrArg Prod.fst h)).symm
      · exact (congrArg Prod.snd h).symm

theorem ensureBinDir_snd_createCalls {st : FsState} (h : st.getInstallDir.isSome) :
    (ensureBinDir st).2.createCalls = st.createCalls + 1 := by
  unfold ensureBinDir
  rcases hgd : st.getInstallDir with _ | d
  · rw [hgd] at h; exact absurd h (by simp)
  · dsimp only
    by_cases hcf : st.createFails = true
    · rw [if_pos hcf]
    · rw [if_neg hcf]

theorem listInstalledVersions_snd (binary : String) (st : FsState) :
    (listInstalledVersions binary st).2 = (ensureBinDir st).2 := by
  unfold listInstalledVersions
  rcases h : ensureBinDir st with ⟨r, st'⟩
  cases r <;> rfl

theorem listInstalled_ok_inv {binary : String} {st : FsState}
    {r : List InstalledBinary} {st' : FsState}
    (h : listInstalledVersions binary st = (.ok r, st')) :
    ∃ d, st.getInstallDir = some d ∧ st.createFails = false ∧
      st.readDirFails = false ∧
      st' = { st with createCalls := st.createCalls + 1,
                      binDir := some (st.binDir.getD []) } ∧
      r = scanEntries binary (d ++ ["bin"]) (st.binDir.getD []) := by
  unfold listInstalledVersions at h
  rcases he : ensureBinDir st with ⟨res, st''⟩
  rw [he] at h
  cases res with
  | error e => exact Except.noConfusion (congrArg Prod.fst h)
  | ok p =>
    obtain ⟨d, hgd, hcf, hp, hst⟩ := ensureBinDir_ok_inv he
    subst hp
    have hra : readAndScan binary (d ++ ["bin"]) st'' = .ok r :=
      congrArg Prod.fst h
    have hst' : st'' = st' := congrArg Prod.snd h
    unfold readAndScan at hra
    rw [hst] at hra
    simp only [Option.getD] at hra
    by_cases hrf : st.readDirFails = true
    · rw [if_pos hrf] at hra
      exact Except.noConfusion hra
    · simp only [Bool.not_eq_true] at hrf
      rw [if_neg (by rw [hrf]; simp)] at hra
      refine ⟨d, hgd, hcf, hrf, by rw [← hst', hst], ?_⟩
      exact (Except.ok.inj hra).symm

/-- C6: `list_installed_versions` returns a strictly ascending (by version)
sequence, every element of which comes from a regular-file entry whose name
is the binary name, a hyphen, and a parseable semantic version; and the
missing-directory case yields an empty list rather than an error. -/
theorem claim_C6_list_installed :
    (∀ (binary : String) (st : FsState) (r : List InstalledBinary) (st' : FsState),
       listInstalledVersions binary st = (.ok r, st') →
       ∃ d entries, st.getInstallDir = some d ∧ st'.binDir = some entries ∧
         r = scanEntries binary (d ++ ["bin"]) entries ∧
         ((entries.map DirEntry.name).Nodup →
            r.Pairwise (fun a b => versionCmp a.version b.version = .lt)) ∧
         (∀ ib, ib ∈ r ↔ ∃ e ∈ entries, e.isFile = true ∧
            ∃ s, stripPfx (binary ++ "-").data e.name.data = some s ∧
              parseVersionL s = some ib.version ∧ ib.path = (d ++ ["bin"]) ++ [e.name]))
    ∧ (∀ (binary : String) (bp : Path) (st : FsState),
        st.binDir = none → readAndScan binary bp st = .ok []) := by
  constructor
  · intro binary st r st' h
    obtain ⟨d, hgd, _, _, hst, hr⟩ := listInstalled_ok_inv h
    refine ⟨d, st.binDir.getD [], hgd, by rw [hst], hr, ?_, ?_⟩
    · intro hnodup
      rw [hr]
      exact scanEntries_strict hnodup
    · intro ib
      rw [hr, scanEntries_mem_iff]
      constructor
      · rintro ⟨e, he, hsome⟩
        obtain ⟨hf, s, hs, hp, hpath⟩ := entryToInstalled_some_iff.mp hsome
        exact ⟨e, he, hf, s, hs, hp, hpath⟩
      · rintro ⟨e, he, hf, s, hs, hp, hpath⟩
        exact ⟨e, he, entryToInstalled_some_iff.mpr ⟨hf, s, hs, hp, hpath⟩⟩
  · intro binary bp st h
    unfold readAndScan
    rw [h]

theorem findInstalled_spec :
    ∀ (binary : String) (vm : Version → Bool) (st : FsState)
      (l : List InstalledBinary) (st' : FsState),
      listInstalledVersions binary st = (.ok l, st') →
      (∀ ib, findInstalledVersion binary vm st = (.ok (some ib), st') →
          vm ib.version = true ∧
          ∀ x ∈ l, vm x.version = true → versionCmp x.version ib.version ≠ .gt)
      ∧ ((∃ x ∈ l, vm x.version = true) →
          ∃ ib, findInstalledVersion binary vm st = (.ok (some ib), st'))
      ∧ ((∀ x ∈ l, vm x.version = false) →
          findInstalledVersion binary vm st = (.ok none, st')) := by
  intro binary vm st l st' h
  have hsorted : l.Pairwise (fun a b => ibLe a b = true) := by
    obtain ⟨d, _, _, _, _, hr⟩ := listInstalled_ok_inv h
    rw [hr]
    exact scanEntries_sorted binary (d ++ ["bin"]) _
  have hspec := find_rev_spec hsorted vm
  have hfind : findInstalledVersion binary vm st =
      (.ok (l.reverse.find? fun e => vm e.version), st') := by
    unfold findInstalledVersion
    rw [h]
  refine ⟨?_, ?_, ?_⟩
  · intro ib hib
    rw [hfind] at hib
    have : l.reverse.find? (fun e => vm e.version) = some ib :=
      Except.ok.inj (congrArg Prod.fst hib)
    obtain ⟨_, hp, hmax⟩ := hspec.1 ib this
    exact ⟨hp, hmax⟩
  · intro hex
    obtain ⟨ib, hib⟩ := hspec.2.1 hex
    exact ⟨ib, by rw [hfind, hib]⟩
  · intro hall
    rw [hfind, hspec.2.2 hall]

/-- C7: `find_installed_version` never returns a version failing the
requirement, returns the maximum satisfying installed version when one
exists, and returns `none` when no installed version satisfies it, even for
a non-empty catalog. -/
theorem claim_C7_find_installed :
    ∀ (binary : String) (vm : Version → Bool) (st : FsState)
      (l : List InstalledBinary) (st' : FsState),
      listInstalledVersions binary st = (.ok l, st') →
      (∀ ib, findInstalledVersion binary vm st = (.ok (some ib), st') →
          vm ib.version = true ∧
          ∀ x ∈ l, vm x.version = true → versionCmp x.version ib.version ≠ .gt)
      ∧ ((∃ x ∈ l, vm x.version = true) →
          ∃ ib, findInstalledVersion binary vm st = (.ok (some ib), st'))
      ∧ ((∀ x ∈ l, vm x.version = false) →
          findInstalledVersion binary vm st = (.ok none, st')) :=
  findInstalled_spec

/-- C9: every catalog operation and the versioned-path derivation first run
`ensure_bin_dir` (a `create_dir_all` on the bin subdirectory), so each
successful catalog read performs a filesystem write, and after it succeeds
the bin directory exists, making the does-not-exist early return of
`list_installed_versions` unreachable on success. -/
theorem claim_C9_ensure_bin_dir_side_effect :
    (∀ (binary : String) (st : FsState), st.getInstallDir.isSome →
       (listInstalledVersions binary st).2.createCalls = st.createCalls + 1)
    ∧ (∀ (binary : String) (vm : Version → Bool) (st : FsState),
        st.getInstallDir.isSome →
        (findInstalledVersion binary vm st).2.createCalls = st.createCalls + 1)
    ∧ (∀ (binary : String) (st : FsState), st.getInstallDir.isSome →
        (latestInstalled binary st).2.createCalls = st.createCalls + 1)
    ∧ (∀ (binary : String) (v : Version) (st : FsState), st.getInstallDir.isSome →
        (versionedBinaryPath binary v st).2.createCalls = st.createCalls + 1)
    ∧ (∀ (binary : String) (st : FsState) (r : List InstalledBinary) (st' : FsState),
        listInstalledVersions binary st = (.ok r, st') →
        st'.binDir.isSome ∧ ∃ d entries, st.getInstallDir = some d ∧
          st'.binDir = some entries ∧ r = scanEntries binary (d ++ ["bin"]) entries) := by
  have hfsnd : ∀ (binary : String) (vm : Version → Bool) (st : FsState),
      (findInstalledVersion binary vm st).2 = (listInstalledVersions binary st).2 := by
    intro binary vm st
    unfold findInstalledVersion
    rcases h : listInstalledVersions binary st with ⟨res, st''⟩
    cases res <;> rfl
  have hlsnd : ∀ (binary : String) (st : FsState),
      (latestInstalled binary st).2 = (listInstalledVersions binary st).2 := by
    intro binary st
    unfold latestInstalled
    rcases h : listInstalledVersions binary st with ⟨res, st''⟩
    cases res <;> rfl
  have hvsnd : ∀ (binary : String) (v : Version) (st : FsState),
      (versionedBinaryPath binary v st).2 = (ensureBinDir st).2 := by
    intro binary v st
    unfold versionedBinaryPath
    rcases h : ensureBinDir st with ⟨res, st''⟩
    cases res <;> rfl
  refine ⟨?_, ?_, ?_, ?_, ?_⟩
  · intro binary st h
    rw [listInstalledVersions_snd]
    exact ensureBinDir_snd_createCalls h
  · intro binary vm st h
    rw [hfsnd, listInstalledVersions_snd]
    exact ensureBinDir_snd_createCalls h
  · intro binary st h
    rw [hlsnd, listInstalledVersions_snd]
    exact ensureBinDir_snd_createCalls h
  · intro binary v st h
    rw [hvsnd]
    exact ensureBinDir_snd_createCalls h
  · intro binary st r st' h
    obtain ⟨d, hgd, _, _, hst, hr⟩ := listInstalled_ok_inv h
    refine ⟨by rw [hst]; simp, d, st.binDir.getD [], hgd, by rw [hst], hr⟩

/-! ## Resolver claims -/

/-- C2: with an unspecified version and `force` off, an installed binary is
reused (its latest version), no oracle call is made and the outcome does not
depend on the oracle; otherwise the latest remote version is fetched and
planned for installation. -/
theorem claim_C2_resolve_unspecified :
    ∀ (reg reg' : Registry) (t : Target) (st : FsState),
      (∀ ib st', latestInstalled t.binary st = (.ok (some ib), st') →
         resolveUnspecified reg t false st = (.ok (.useInstalled ib.path), [], st') ∧
         resolveUnspecified reg t false st = resolveUnspecified reg' t false st)
      ∧ (∀ st', latestInstalled t.binary st = (.ok none, st') →
         resolveUnspecified reg t false st =
           ((match reg.latestVersion t.crateName with
             | none => .error .registry
             | some v => .ok (.installAndRun v)), [.latest t.crateName], st'))
      ∧ (resolveUnspecified reg t true st =
           ((match reg.latestVersion t.crateName with
             | none => .error .registry
             | some v => .ok (.installAndRun v)), [.latest t.crateName], st)) := by
  intro reg reg' t st
  refine ⟨?_, ?_, ?_⟩
  · intro ib st' h
    constructor
    · unfold resolveUnspecified
      simp only [Bool.not_false, if_true, h]
    · unfold resolveUnspecified
      simp only [Bool.not_false, if_true, h]
  · intro st' h
    unfold resolveUnspecified
    simp only [Bool.not_false, if_true, h]
    rcases hv : reg.latestVersion t.crateName with _ | v <;> simp [hv]
  · unfold resolveUnspecified
    simp only [Bool.not_true, Bool.false_eq_true, if_false]
    rcases hv : reg.latestVersion t.crateName with _ | v <;> simp [hv]

/-- C3: with the `latest` version spec the remote oracle is always queried;
with `force` off an installed version at least as new as the remote latest
is reused, and in every other case the remote latest is planned for
installation. -/
theorem claim_C3_resolve_latest :
    ∀ (reg : Registry) (t : Target) (st : FsState)
      (instOpt : Option InstalledBinary) (st' : FsState),
      latestInstalled t.binary st = (.ok instOpt, st') →
      (∀ force, (resolveLatest reg t force st).2.1 = [.latest t.crateName])
      ∧ (∀ v, reg.latestVersion t.crateName = some v →
          (∀ ib, instOpt = some ib → versionGe ib.version v = true →
             resolveLatest reg t false st =
               (.ok (.useInstalled ib.path), [.latest t.crateName], st'))
          ∧ (∀ ib, instOpt = some ib → versionGe ib.version v = false →
             resolveLatest reg t false st =
               (.ok (.installAndRun v), [.latest t.crateName], st'))
          ∧ (instOpt = none →
             resolveLatest reg t false st =
               (.ok (.installAndRun v), [.latest t.crateName], st'))
          ∧ (resolveLatest reg t true st =
               (.ok (.installAndRun v), [.latest t.crateName], st'))) := by
  intro reg t st instOpt st' h
  constructor
  · intro force
    unfold resolveLatest
    simp only [h]
    rcases hv : reg.latestVersion t.crateName with _ | v
    · rfl
    · cases force
      · cases instOpt with
        | none => rfl
        | some ib => by_cases hge : versionGe ib.version v = true <;> simp [hge]
      · rfl
  · intro v hv
    refine ⟨?_, ?_, ?_, ?_⟩
    · intro ib hib hge
      unfold resolveLatest
      simp only [h, hv, hib, hge, Bool.false_eq_true, if_false, if_true]
    · intro ib hib hge
      unfold resolveLatest
      simp only [h, hv, hib, hge, Bool.false_eq_true, if_false]
    · intro hnone
      unfold resolveLatest
      simp only [h, hv, hnone, Bool.false_eq_true, if_false]
    · unfold resolveLatest
      simp only [h, hv, if_true]

/-- C4: with a requirement and `force` off, the highest installed matching
version is reused with no oracle call and independently of the oracle;
otherwise the highest matching remote version is fetched and planned for
installation. -/
theorem claim_C4_resolve_requirement :
    ∀ (reg reg' : Registry) (t : Target) (req : VersionReq) (st : FsState)
      (l : List InstalledBinary) (st' : FsState),
      listInstalledVersions t.binary st = (.ok l, st') →
      (∀ ib, findInstalledVersion t.binary req.vmatches st = (.ok (some ib), st') →
         resolveRequirement reg t false req st = (.ok (.useInstalled ib.path), [], st') ∧
         resolveRequirement reg t false req st = resolveRequirement reg' t false req st ∧
         req.vmatches ib.version = true ∧
         ∀ x ∈ l, req.vmatches x.version = true →
           versionCmp x.version ib.version ≠ .gt)
      ∧ (findInstalledVersion t.binary req.vmatches st = (.ok none, st') →
         resolveRequirement reg t false req st =
           ((match reg.highestMatchingVersion t.crateName req with
             | none => .error .registry
             | some v => .ok (.installAndRun v)),
            [.highestMatching t.crateName req], st'))
      ∧ (resolveRequirement reg t true req st =
           ((match reg.highestMatchingVersion t.crateName req with
             | none => .error .registry
             | some v => .ok (.installAndRun v)),
            [.highestMatching t.crateName req], st)) := by
  intro reg reg' t req st l st' h
  refine ⟨?_, ?_, ?_⟩
  · intro ib hfind
    obtain ⟨hm, hmax⟩ := (findInstalled_spec t.binary req.vmatches st l st' h).1 ib hfind
    refine ⟨?_, ?_, hm, hmax⟩
    · unfold resolveRequirement
      simp only [Bool.not_false, if_true, hfind]
    · unfold resolveRequirement
      simp only [Bool.not_false, if_true, hfind]
  · intro hfind
    unfold resolveRequirement
    simp only [Bool.not_false, if_true, hfind]
    rcases hv : reg.highestMatchingVersion t.crateName req with _ | v <;> simp [hv]
  · unfold resolveRequirement
    simp only [Bool.not_true, Bool.false_eq_true, if_false]
    rcases hv : reg.highestMatchingVersion t.crateName req with _ | v <;> simp [hv]

/-- C5: with `force` on, every successful resolution is an
`InstallAndRun` whose version came from the registry oracle, the oracle was
queried, and no `UseInstalled` plan is ever produced. -/
theorem claim_C5_force_installs :
    ∀ (reg : Registry) (t : Target) (st : FsState) (plan : RunPlan)
      (calls : List OracleCall) (st' : FsState),
      resolveRunPlan reg t true st = (.ok plan, calls, st') →
      ∃ v, plan = .installAndRun v ∧
        (match t.version with
         | .unspecified => reg.latestVersion t.crateName = some v ∧
             calls = [.latest t.crateName]
         | .latest => reg.latestVersion t.crateName = some v ∧
             calls = [.latest t.crateName]
         | .requirement r => reg.highestMatchingVersion t.crateName r = some v ∧
             calls = [.highestMatching t.crateName r]) := by
  intro reg t st plan calls st' h
  unfold resolveRunPlan at h
  rcases htv : t.version with _ | _ | r
  all_goals rw [htv] at h
  · unfold resolveUnspecified at h
    simp only [Bool.not_true, Bool.false_eq_true, if_false] at h
    rcases hv : reg.latestVersion t.crateName with _ | v
    · rw [hv] at h
      exact Except.noConfusion (congrArg Prod.fst h)
    · rw [hv] at h
      have hp : Except.ok (RunPlan.installAndRun v) = Except.ok plan :=
        congrArg Prod.fst h
      have hc : [OracleCall.latest t.crateName] = calls :=
        congrArg (fun x => x.2.1) h
      exact ⟨v, (Except.ok.inj hp).symm, ⟨rfl, hc.symm⟩⟩
  · unfold resolveLatest at h
    rcases hli : latestInstalled t.binary st with ⟨res, st''⟩
    rw [hli] at h
    cases res with
    | error e =>
      exact Except.noConfusion (congrArg Prod.fst h)
    | ok instOpt =>
      rcases hv : reg.latestVersion t.crateName with _ | v
      · rw [hv] at h
        exact Except.noConfusion (congrArg Prod.fst h)
      · rw [hv] at h
        simp only [if_true] at h
        have hp : Except.ok (RunPlan.installAndRun v) = Except.ok plan :=
          congrArg Prod.fst h
        have hc : [OracleCall.latest t.crateName] = calls :=
          congrArg (fun x => x.2.1) h
        exact ⟨v, (Except.ok.inj hp).symm, ⟨rfl, hc.symm⟩⟩
  · unfold resolveRequirement at h
    simp only [Bool.not_true, Bool.false_eq_true, if_false] at h
    rcases hv : reg.highestMatchingVersion t.crateName r with _ | v
    · rw [hv] at h
      exact Except.noConfusion (congrArg Prod.fst h)
    · rw [hv] at h
      have hp : Except.ok (RunPlan.installAndRun v) = Except.ok plan :=
        congrArg Prod.fst h
      have hc : [OracleCall.highestMatching t.crateName r] = calls :=
        congrArg (fun x => x.2.1) h
      exact ⟨v, (Except.ok.inj hp).symm, ⟨hv, hc.symm⟩⟩

/-! ## Executor claims -/

/-- C1: the executor canonicalizes the install root and the candidate path,
refuses with the path-escape error and spawns nothing when the canonical
candidate is not equal to or under the canonical root, and any spawn
attempt implies the containment check succeeded. -/
theorem claim_C1_executor_containment :
    ∀ (env : ExecEnv) (p : Path) (args : List String),
      (∀ d root binC, env.installDir = some d → env.canon d = some root →
         env.canon p = some binC → root.isPrefixOf binC = false →
         executeBinary env p args = (.error .pathEscape, []))
      ∧ ((executeBinary env p args).2 ≠ [] →
         ∃ d root binC, env.installDir = some d ∧ env.canon d = some root ∧
           env.canon p = some binC ∧ root.isPrefixOf binC = true ∧
           (executeBinary env p args).2 = [⟨p, args⟩]) := by
  intro env p args
  constructor
  · intro d root binC hd hroot hbin hpfx
    unfold executeBinary ensureWithinInstallDir ensureBinaryWithinDir
    simp only [hd, hroot, hbin, hpfx, Bool.false_eq_true, if_false]
  · intro hne
    unfold executeBinary ensureWithinInstallDir ensureBinaryWithinDir at hne ⊢
    rcases hd : env.installDir with _ | d
    · rw [hd] at hne
      exact absurd rfl hne
    · simp only [hd] at hne ⊢
      rcases hroot : env.canon d with _ | root
      · simp only [hroot] at hne
        exact absurd rfl hne
      · simp only [hroot] at hne ⊢
        rcases hbin : env.canon p with _ | binC
        · simp only [hbin] at hne
          exact absurd rfl hne
        · simp only [hbin] at hne ⊢
          by_cases hpfx : root.isPrefixOf binC = true
          · refine ⟨d, root, binC, rfl, hroot, rfl, hpfx, ?_⟩
            simp only [hpfx, if_true]
            rcases hs : env.spawn p args with _ | code <;> simp [hs]
          · simp only [Bool.not_eq_true] at hpfx
            simp only [hpfx, Bool.false_eq_true, if_false] at hne
            exact absurd rfl hne

/-- C10: the containment gate compares against the install root itself (not
its `bin` subdirectory): whenever the canonical candidate path starts with
the canonical root, the gate passes and the spawn is attempted. -/
theorem claim_C10_gate_against_root :
    ∀ (env : ExecEnv) (p : Path) (args : List String) (d root binC : Path),
      env.installDir = some d → env.canon d = some root →
      env.canon p = some binC → root.isPrefixOf binC = true →
      executeBinary env p args =
        ((match env.spawn p args with
          | none => .error .execFailed
          | some code => .ok code), [⟨p, args⟩]) := by
  intro env p args d root binC hd hroot hbin hpfx
  unfold executeBinary ensureWithinInstallDir ensureBinaryWithinDir
  simp only [hd, hroot, hbin, hpfx, if_true]
  rcases hs : env.spawn p args with _ | code <;> simp [hs]

/-! ## Install-root provider claims -/

/-- C8 as amended: the branch priority is the explicit override, then the
platform data directory, then the home fallback; the data-directory and
fallback branches create the returned directory before returning, while the
override branch returns the configured path without any filesystem
operation (so its existence is not guaranteed by `get_install_dir`). -/
theorem claim_C8_amended_install_dir :
    ∀ (env : PathsEnv) (fs : PathsFs),
      (∀ p, env.cargoxInstallDir = some p →
         getInstallDir env fs = (.ok (pathFromString p), []))
      ∧ (∀ dataDir, env.cargoxInstallDir = none → env.projectDataDir = some dataDir →
          getInstallDir env fs =
            (if fs.createFails dataDir then (.error .createDataDirFailed, [dataDir])
             else (.ok dataDir, [dataDir])))
      ∧ (∀ h, env.cargoxInstallDir = none → env.projectDataDir = none →
          homeDir env = some h →
          getInstallDir env fs =
            (if fs.createFails (pathFromString h ++ [".local", "share", "cargox"])
             then (.error .createFallbackFailed,
                   [pathFromString h ++ [".local", "share", "cargox"]])
             else (.ok (pathFromString h ++ [".local", "share", "cargox"]),
                   [pathFromString h ++ [".local", "share", "cargox"]])))
      ∧ (env.cargoxInstallDir = none → env.projectDataDir = none →
          homeDir env = none → getInstallDir env fs = (.error .noInstallDir, []))
      ∧ (∀ r log, getInstallDir env fs = (.ok r, log) →
          env.cargoxInstallDir = none → r ∈ log) := by
  intro env fs
  refine ⟨?_, ?_, ?_, ?_, ?_⟩
  · intro p hp
    unfold getInstallDir
    simp only [hp]
  · intro dataDir hc hd
    unfold getInstallDir
    simp only [hc, hd]
  · intro h hc hd hh
    unfold getInstallDir
    simp only [hc, hd, hh]
  · intro hc hd hh
    unfold getInstallDir
    simp only [hc, hd, hh]
  · intro r log hok hc
    unfold getInstallDir at hok
    simp only [hc] at hok
    rcases hd : env.projectDataDir with _ | dataDir
    · rw [hd] at hok
      rcases hh : homeDir env with _ | h
      · rw [hh] at hok
        exact Except.noConfusion (congrArg Prod.fst hok)
      · rw [hh] at hok
        by_cases hcf : fs.createFails (pathFromString h ++ [".local", "share", "cargox"]) = true
        · simp only [hcf, if_true] at hok
          exact Except.noConfusion (congrArg Prod.fst hok)
        · simp only [hcf, Bool.false_eq_true, if_false] at hok
          have hr : pathFromString h ++ [".local", "share", "cargox"] = r :=
            Except.ok.inj (congrArg Prod.fst hok)
          have hl : [pathFromString h ++ [".local", "share", "cargox"]] = log :=
            congrArg Prod.snd hok
          rw [← hr, ← hl]
          simp
    · rw [hd] at hok
      by_cases hcf : fs.createFails dataDir = true
      · simp only [hcf, if_true] at hok
        exact Except.noConfusion (congrArg Prod.fst hok)
      · simp only [hcf, Bool.false_eq_true, if_false] at hok
        have hr : dataDir = r := Except.ok.inj (congrArg Prod.fst hok)
        have hl : [dataDir] = log := congrArg Prod.snd hok
        rw [← hr, ← hl]
        simp

/-- C8 counterexample: with `CARGOX_INSTALL_DIR` set, `get_install_dir`
returns the configured path without performing any `create_dir_all`, so the
claim that every successful return creates the returned directory is false
on the explicit-override branch. -/
theorem claim_C8_counterexample :
    getInstallDir ⟨some "/custom", none, none, none⟩ ⟨fun _ => false⟩ =
      (.ok ["/custom"], []) ∧
    ¬ (∀ (env : PathsEnv) (fs : PathsFs) (r : Path) (log : List Path),
        getInstallDir env fs = (.ok r, log) → r ∈ log) := by
  refine ⟨rfl, ?_⟩
  intro hclaim
  have := hclaim ⟨some "/custom", none, none, none⟩ ⟨fun _ => false⟩ ["/custom"] [] rfl
  simp at this

/-! ## Witnesses -/

/-- Witness for C6 at the concrete catalog `wSt`. -/
theorem claim_C6_witness :
    (∃ d entries, wSt.getInstallDir = some d ∧ wSt'.binDir = some entries ∧
       wList = scanEntries "tool" (d ++ ["bin"]) entries ∧
       ((entries.map DirEntry.name).Nodup →
          wList.Pairwise (fun a b => versionCmp a.version b.version = .lt)) ∧
       (∀ ib, ib ∈ wList ↔ ∃ e ∈ entries, e.isFile = true ∧
          ∃ s, stripPfx ("tool" ++ "-").data e.name.data = some s ∧
            parseVersionL s = some ib.version ∧ ib.path = (d ++ ["bin"]) ++ [e.name]))
    ∧ readAndScan "tool" ["root", "bin"] wStNoDir = .ok [] :=
  ⟨claim_C6_list_installed.1 "tool" wSt wList wSt' (by rfl),
   claim_C6_list_installed.2 "tool" ["root", "bin"] wStNoDir rfl⟩

/-- Witness for C7: the requirement `major = 0` selects `tool-0.2.0`. -/
theorem claim_C7_witness :
    ∃ ib, findInstalledVersion "tool" wVm wSt = (.ok (some ib), wSt') :=
  (claim_C7_find_installed "tool" wVm wSt wList wSt' (by rfl)).2.1 ⟨wIB2, by decide, rfl⟩

/-- Witness for C9 at the concrete catalog `wSt`. -/
theorem claim_C9_witness :
    (listInstalledVersions "tool" wSt).2.createCalls = wSt.createCalls + 1 ∧
    (findInstalledVersion "tool" wVm wSt).2.createCalls = wSt.createCalls + 1 ∧
    (latestInstalled "tool" wSt).2.createCalls = wSt.createCalls + 1 ∧
    (versionedBinaryPath "tool" wV16 wSt).2.createCalls = wSt.createCalls + 1 ∧
    (wSt'.binDir.isSome ∧ ∃ d entries, wSt.getInstallDir = some d ∧
       wSt'.binDir = some entries ∧ wList = scanEntries "tool" (d ++ ["bin"]) entries) :=
  ⟨claim_C9_ensure_bin_dir_side_effect.1 "tool" wSt rfl,
   claim_C9_ensure_bin_dir_side_effect.2.1 "tool" wVm wSt rfl,
   claim_C9_ensure_bin_dir_side_effect.2.2.1 "tool" wSt rfl,
   claim_C9_ensure_bin_dir_side_effect.2.2.2.1 "tool" wV16 wSt rfl,
   claim_C9_ensure_bin_dir_side_effect.2.2.2.2 "tool" wSt wList wSt' (by rfl)⟩

/-- Witness for C2: with an installed `tool-0.2.0` and no `force`, the
resolver reuses it, calls no oracle, and ignores the registry. -/
theorem claim_C2_witness :
    resolveUnspecified wReg wTu false wSt = (.ok (.useInstalled wIB2.path), [], wSt') ∧
    resolveUnspecified wReg wTu false wSt = resolveUnspecified wRegErr wTu false wSt :=
  (claim_C2_resolve_unspecified wReg wRegErr wTu wSt).1 wIB2 wSt' (by rfl)

/-- Witness for C3: installed 0.2.0 is older than the remote 1.6.0, so the
resolver plans to install the remote latest. -/
theorem claim_C3_witness :
    resolveLatest wReg wTl false wSt =
      (.ok (.installAndRun wV16), [.latest "tool"], wSt') :=
  ((claim_C3_resolve_latest wReg wTl wSt (some wIB2) wSt' (by rfl)).2 wV16 rfl).2.1 wIB2 rfl rfl

/-- Witness for C4: the highest installed version with major 0 is reused
without any oracle call. -/
theorem claim_C4_witness :
    resolveRequirement wReg wTr false wReq wSt =
      (.ok (.useInstalled wIB2.path), [], wSt') ∧
    resolveRequirement wReg wTr false wReq wSt =
      resolveRequirement wRegErr wTr false wReq wSt ∧
    wReq.vmatches wIB2.version = true ∧
    (∀ x ∈ wList, wReq.vmatches x.version = true →
       versionCmp x.version wIB2.version ≠ .gt) :=
  (claim_C4_resolve_requirement wReg wRegErr wTr wReq wSt wList wSt' (by rfl)).1 wIB2 rfl

/-- Witness for C5: with `force` on, the unspecified-version target installs
the remote latest even though `tool-0.2.0` is installed. -/
theorem claim_C5_witness :
    ∃ v, RunPlan.installAndRun wV16 = RunPlan.installAndRun v ∧
      (wReg.latestVersion wTu.crateName = some v ∧
       ([OracleCall.latest "tool"] : List OracleCall) = [.latest wTu.crateName]) :=
  claim_C5_force_installs wReg wTu wSt (.installAndRun wV16) [.latest "tool"] wSt rfl

/-- Witness for C1: a symlink inside the root that canonicalizes to
`/etc/passwd` is refused and nothing is spawned. -/
theorem claim_C1_witness :
    executeBinary wExecEnvEscape ["lnk"] [] = (.error .pathEscape, []) :=
  (claim_C1_executor_containment wExecEnvEscape ["lnk"] []).1 ["root"] ["root"]
    ["etc", "passwd"] rfl rfl rfl rfl

/-- Witness for C10: a file directly under the root but outside `root/bin`
passes the gate and is spawned. -/
theorem claim_C10_witness :
    executeBinary wExecEnvRoot ["root", "evil"] [] =
      (.ok 7, [⟨["root", "evil"], []⟩]) ∧
    (["root", "bin"] : Path).isPrefixOf ["root", "evil"] = false :=
  ⟨claim_C10_gate_against_root wExecEnvRoot ["root", "evil"] [] ["root"] ["root"]
     ["root", "evil"] rfl rfl rfl rfl, rfl⟩

/-- Witness for C8 (amended): the data-directory branch creates and returns
the platform directory; the override branch returns the configured path with
no creation. -/
theorem claim_C8_witness :
    getInstallDir wPathsEnvData wPathsFs =
      (.ok ["data", "cargox"], [["data", "cargox"]]) ∧
    getInstallDir ⟨some "/custom", none, none, none⟩ wPathsFs =
      (.ok ["/custom"], []) :=
  ⟨(claim_C8_amended_install_dir wPathsEnvData wPathsFs).2.1 ["data", "cargox"] rfl rfl,
   (claim_C8_amended_install_dir ⟨some "/custom", none, none, none⟩ wPathsFs).1
     "/custom" rfl⟩

end Cargox
